import Mathlib
/-!
Verification of the midi-scale-finder key inference engine and selection
history, shallowly embedded from `src/scaleDetector.js` and `src/script.js`.

Modelling conventions:
* JavaScript numbers are modelled as exact rationals (`ℚ`); the scoring and
  percentage arithmetic of the program uses only additions, multiplications
  by fixed constants, divisions and `Math.round`, all of which are embedded
  over `ℚ`.
* A JavaScript `Map` is modelled either as a total function (where the code
  only reads it via `get`) or as an association list of entries (where the
  code iterates over `entries()`/`values()`).
* `Array.prototype.sort(cmp)` (stable since ES2019) is modelled as
  `List.mergeSort le` with `le a b ↔ cmp a b ≤ 0`; for a consistent
  comparator every stable sort produces the same output list.
-/
/-- The two supported modes, the keys of the `SCALES` object in
`src/scaleDetector.js`. -/
inductive Mode where
  | Major : Mode
  | Minor : Mode
deriving DecidableEq, Repr
/-- Interval templates of the `SCALES` object (`src/scaleDetector.js`). -/
def SCALES : Mode → List Nat
  | .Major => [0, 2, 4, 5, 7, 9, 11]
  | .Minor => [0, 2, 3, 5, 7, 8, 10]
/-- Iteration order of `Object.entries(SCALES)`: insertion order of the
object literal, `Major` first. -/
def scaleModes : List Mode := [.Major, .Minor]
/-- `buildScale` from `src/scaleDetector.js`: transpose the interval
template to the root, reducing modulo 12. -/
def buildScale (root : Nat) (intervals : List Nat) : List Nat :=
  intervals.map (fun i => (root + i) % 12)
/-- The `names` array inside `midiToNoteName`. -/
def noteNames : List String :=
  ["C", "C#/Db", "D", "D#/Eb", "E", "F", "F#/Gb", "G", "G#/Ab", "A", "A#/Bb", "B"]
/-- Result of a JavaScript out-of-bounds array read (`undefined`), used to
totalise `midiToNoteName`; the program only calls it with `pc < 12`. -/
def undefinedName : String := ""
/-- `midiToNoteName` from `src/scaleDetector.js`. -/
def midiToNoteName (pc : Nat) : String := noteNames.getD pc undefinedName
/-- `getScalePitchClasses` from `src/scaleDetector.js`.  The `!intervals`
guard of the source is unreachable here because `Mode` is exactly the set
of keys of `SCALES`. -/
def getScalePitchClasses (root : Nat) (mode : Mode) : List Nat :=
  buildScale root (SCALES mode)
/-- An element of the result array of `findMatchingScalesSimple`. -/
structure SimpleMatch where
  root : Nat
  name : Mode
  rootName : String
deriving DecidableEq, Repr
/-- `findMatchingScalesSimple` from `src/scaleDetector.js`: the nested
`for` loops over roots 0..11 and `Object.entries(SCALES)`, pushing a
result exactly when `usedNotes.every(note => scale.includes(note))`. -/
def findMatchingScalesSimple (usedNotes : List Nat) : List SimpleMatch :=
  (List.range 12).flatMap (fun root =>
    scaleModes.filterMap (fun name =>
      let scale := buildScale root (SCALES name)
      if usedNotes.all (fun note => scale.contains note) then
        some { root := root, name := name, rootName := midiToNoteName root }
      else
        none))
/-- The tunable multipliers destructured from the `params` argument of
`findMatchingScalesWeighted` (`src/scaleDetector.js`), in source order:
tonicMult, dominantMult, subdominantMult, thirdMult, wrongThirdPenalty,
outsidePenalty. -/
structure ScoreParams where
  tonicMult : ℚ
  dominantMult : ℚ
  subdominantMult : ℚ
  thirdMult : ℚ
  wrongThirdPenalty : ℚ
  outsidePenalty : ℚ
deriving DecidableEq, Repr
/-- The default multipliers of `findMatchingScalesWeighted`: tonicMult 4.0,
dominantMult 1.5, subdominantMult 0.5, thirdMult 1.2, wrongThirdPenalty 0.5,
outsidePenalty 3.0. -/
def defaultScoreParams : ScoreParams := ⟨4, 3/2, 1/2, 6/5, 1/2, 3⟩
/-- The scale degree `(pc - root + 12) % 12` of the source, over naturals;
for `root ≤ 12` the JavaScript intermediate value is non-negative, so the
two computations agree. -/
def degreeOf (pc root : Nat) : Nat := (pc + 12 - root) % 12
/-- The in-scale `points` computation of `findMatchingScalesWeighted`:
base points `weight`, multiplied according to the scale degree. -/
def inScalePoints (p : ScoreParams) (name : Mode) (scaleDegree : Nat)
    (weight : ℚ) : ℚ :=
  if scaleDegree = 0 then weight * p.tonicMult
  else if scaleDegree = 7 then weight * p.dominantMult
  else if scaleDegree = 5 then weight * p.subdominantMult
  else if scaleDegree = 3 ∨ scaleDegree = 4 then
    if name = .Major ∧ scaleDegree = 4 then weight * p.thirdMult
    else if name = .Minor ∧ scaleDegree = 3 then weight * p.thirdMult
    else weight
  else weight
/-- One iteration of the `usedNotes.forEach` loop of
`findMatchingScalesWeighted`, acting on the `(score, penalty)` accumulator. -/
def scoreStep (p : ScoreParams) (root : Nat) (name : Mode)
    (noteWeights : Nat → ℚ) (acc : ℚ × ℚ) (pc : Nat) : ℚ × ℚ :=
  let scale := buildScale root (SCALES name)
  let weight := noteWeights pc
  if scale.contains pc then
    (acc.1 + inScalePoints p name (degreeOf pc root) weight, acc.2)
  else
    (acc.1,
      acc.2 + weight * p.outsidePenalty +
        (if name = .Major ∧ degreeOf pc root = 3 then weight * p.wrongThirdPenalty
         else if name = .Minor ∧ degreeOf pc root = 4 then weight * p.wrongThirdPenalty
         else 0))
/-- The `(score, penalty)` pair accumulated by the `usedNotes.forEach` loop
for one `(root, name)` candidate. -/
def scoreAndPenalty (p : ScoreParams) (root : Nat) (name : Mode)
    (usedNotes : List Nat) (noteWeights : Nat → ℚ) : ℚ × ℚ :=
  usedNotes.foldl (scoreStep p root name noteWeights) (0, 0)
/-- An element of the results array of `findMatchingScalesWeighted`. -/
structure WeightedMatch where
  root : Nat
  name : Mode
  score : ℚ
  rawScore : ℚ
  missing : ℚ
  tonicMatch : Bool
deriving DecidableEq, Repr
/-- The record pushed onto `results` for one `(root, name)` pair:
`score` holds the net value `score - penalty`, `rawScore` the raw score and
`missing` the penalty. -/
def weightedEntry (p : ScoreParams) (root : Nat) (name : Mode)
    (usedNotes : List Nat) (noteWeights : Nat → ℚ) : WeightedMatch :=
  { root := root, name := name,
    score := (scoreAndPenalty p root name usedNotes noteWeights).1 -
      (scoreAndPenalty p root name usedNotes noteWeights).2,
    rawScore := (scoreAndPenalty p root name usedNotes noteWeights).1,
    missing := (scoreAndPenalty p root name usedNotes noteWeights).2,
    tonicMatch := false }
/-- The unsorted `results` array of `findMatchingScalesWeighted`: the nested
loops over roots 0..11 and `Object.entries(SCALES)`. -/
def weightedEntries (p : ScoreParams) (usedNotes : List Nat)
    (noteWeights : Nat → ℚ) : List WeightedMatch :=
  (List.range 12).flatMap (fun root =>
    scaleModes.map (fun name => weightedEntry p root name usedNotes noteWeights))
/-- The sort comparator of `findMatchingScalesWeighted`
(`(a, b) => b.score - a.score`, ties by `a.missing - b.missing`), expressed
as the corresponding total preorder `cmp a b ≤ 0`. -/
def weightedLE (a b : WeightedMatch) : Bool :=
  decide (b.score < a.score ∨ (a.score = b.score ∧ a.missing ≤ b.missing))
/-- `findMatchingScalesWeighted` from `src/scaleDetector.js`: score all 24
candidates, then sort by net score descending with lowest penalty as the
tie-break (stable). -/
def findMatchingScalesWeighted (usedNotes : List Nat) (noteWeights : Nat → ℚ)
    (params : ScoreParams) : List WeightedMatch :=
  (weightedEntries params usedNotes noteWeights).mergeSort weightedLE
/-- Degree multiplier table as the spec states it (§4.4): tonic, dominant,
subdominant, the mode-defining third, and 1 for every other in-scale
degree. -/
def specDegreeMultiplier (p : ScoreParams) (name : Mode) (degree : Nat) : ℚ :=
  if degree = 0 then p.tonicMult
  else if degree = 7 then p.dominantMult
  else if degree = 5 then p.subdominantMult
  else if (name = .Major ∧ degree = 4) ∨ (name = .Minor ∧ degree = 3) then
    p.thirdMult
  else 1
/-- Score as the spec states it: the sum, over used pitch classes inside the
instance, of weight times the degree multiplier. -/
def specScore (p : ScoreParams) (root : Nat) (name : Mode)
    (usedNotes : List Nat) (noteWeights : Nat → ℚ) : ℚ :=
  ((usedNotes.filter fun pc => (buildScale root (SCALES name)).contains pc).map
    fun pc => noteWeights pc * specDegreeMultiplier p name (degreeOf pc root)).sum
/-- The additional wrong-third penalty as the spec states it: applied exactly
when the outside pitch class is the other mode's third. -/
def specWrongThirdExtra (p : ScoreParams) (name : Mode) (degree : Nat)
    (weight : ℚ) : ℚ :=
  if (name = .Major ∧ degree = 3) ∨ (name = .Minor ∧ degree = 4) then
    weight * p.wrongThirdPenalty
  else 0
/-- Penalty as the spec states it: the sum, over used pitch classes outside
the instance, of weight times the outside multiplier plus the wrong-third
extra. -/
def specPenalty (p : ScoreParams) (root : Nat) (name : Mode)
    (usedNotes : List Nat) (noteWeights : Nat → ℚ) : ℚ :=
  ((usedNotes.filter fun pc => !(buildScale root (SCALES name)).contains pc).map
    fun pc => noteWeights pc * p.outsidePenalty +
      specWrongThirdExtra p name (degreeOf pc root) (noteWeights pc)).sum
/-- The multiplier ranges stated by the spec for the six tuned constants. -/
def specMultiplierRanges (p : ScoreParams) : Prop :=
  (4 ≤ p.tonicMult ∧ p.tonicMult ≤ 9/2) ∧
  (3/2 ≤ p.dominantMult ∧ p.dominantMult ≤ 2) ∧
  (1/5 ≤ p.subdominantMult ∧ p.subdominantMult ≤ 1/2) ∧
  (6/5 ≤ p.thirdMult ∧ p.thirdMult ≤ 8/5) ∧
  (1/2 ≤ p.wrongThirdPenalty ∧ p.wrongThirdPenalty ≤ 1) ∧
  (2 ≤ p.outsidePenalty ∧ p.outsidePenalty ≤ 3)
/-- `Math.round` for finite non-negative JavaScript numbers: round half
toward positive infinity. -/
def jsRound (q : ℚ) : ℤ := ⌊q + 1/2⌋
/-- `sumWeights` from `src/script.js`: the accumulation loop over
`noteWeights.values()`. -/
def sumWeights (noteWeights : List (Nat × ℚ)) : ℚ :=
  noteWeights.foldl (fun total v => total + v.2) 0
/-- The `inTotal` accumulation loop of `computeScaleCoveragePct`: total
weight of the entries whose pitch class lies in the scale instance. -/
def coverageInTotal (root : Nat) (mode : Mode)
    (noteWeights : List (Nat × ℚ)) : ℚ :=
  ((noteWeights.filter fun e =>
    (getScalePitchClasses root mode).contains e.1).map Prod.snd).sum
/-- `computeScaleCoveragePct` from `src/script.js`: zero on zero (or
negative) total weight, otherwise the rounded in-scale share of the total
weight, with the out-share clamped at 0. -/
def computeScaleCoveragePct (root : Nat) (mode : Mode)
    (noteWeights : List (Nat × ℚ)) : ℤ × ℤ :=
  if sumWeights noteWeights ≤ 0 then (0, 0)
  else
    (jsRound (coverageInTotal root mode noteWeights /
        sumWeights noteWeights * 100),
      max 0 (100 - jsRound (coverageInTotal root mode noteWeights /
        sumWeights noteWeights * 100)))
/-- Key of a weighted record in the `rankByKey` map; the template string
`root-name` of the source is in bijection with this pair. -/
def wkey (m : WeightedMatch) : Nat × Mode := (m.root, m.name)
/-- Key of a simple-match candidate, for `rankByKey` lookups. -/
def skey (c : SimpleMatch) : Nat × Mode := (c.root, c.name)
/-- `rankByKey.get(key) ?? 999`: index of the first weighted record whose
key is the candidate's key, 999 when absent (the map keeps the last index
per key; first and last coincide because all 24 keys are distinct). -/
def rankOf (ws : List WeightedMatch) (c : SimpleMatch) : Nat :=
  (ws.findIdx? (fun m => decide (wkey m = skey c))).getD 999
/-- Comparator of the emphasis-ranked candidate sort in
`updateOutputFromSelection`
(`(a, b) => rank(a) - rank(b)`, as a total preorder). -/
def rankLE (ws : List WeightedMatch) (a b : SimpleMatch) : Bool :=
  decide (rankOf ws a ≤ rankOf ws b)
/-- Order of the two mode names under `String.localeCompare`
("Major" sorts before "Minor"). -/
def modeIdx : Mode → Nat
  | .Major => 0
  | .Minor => 1
/-- Comparator of the neutral candidate sort (no MIDI weighting): by root,
ties by `localeCompare` of the names. -/
def neutralLE (a b : SimpleMatch) : Bool :=
  decide (a.root < b.root ∨ (a.root = b.root ∧ modeIdx a.name ≤ modeIdx b.name))
/-- Conversion applied to the weighted fallback candidates in
`updateOutputFromSelection`
(`m => ({root: m.root, name: m.name, rootName: midiToNoteName(m.root)})`). -/
def weightedToCandidate (m : WeightedMatch) : SimpleMatch :=
  { root := m.root, name := m.name, rootName := midiToNoteName m.root }
/-- The candidate-list construction of `updateOutputFromSelection`
(`src/script.js`): an empty selection returns early with no candidates;
otherwise the containment matches are re-sorted by weighted rank (when MIDI
emphasis data exists) or neutrally (when not); when there is no containment
match, the 12 best weighted candidates are used. -/
def rankCandidates (showEmphasis : Bool) (usedNotes : List Nat)
    (noteWeights : Nat → ℚ) : List SimpleMatch :=
  if usedNotes.isEmpty then []
  else
    let weightedMatches :=
      findMatchingScalesWeighted usedNotes noteWeights defaultScoreParams
    let simpleMatches := findMatchingScalesSimple usedNotes
    if 0 < simpleMatches.length then
      if showEmphasis then simpleMatches.mergeSort (rankLE weightedMatches)
      else simpleMatches.mergeSort neutralLE
    else (weightedMatches.take 12).map weightedToCandidate
/-- `best = candidates[0]` of `updateOutputFromSelection`. -/
def bestGuess (showEmphasis : Bool) (usedNotes : List Nat)
    (noteWeights : Nat → ℚ) : Option SimpleMatch :=
  (rankCandidates showEmphasis usedNotes noteWeights).head?
/-- `const safeTotal = total > 0 ? total : 1` of `buildPctMap`
(`src/script.js`). -/
def safeTotal (noteWeights : List (Nat × ℚ)) : ℚ :=
  if 0 < sumWeights noteWeights then sumWeights noteWeights else 1
/-- `buildPctMap` from `src/script.js`: rounded percentage of the guarded
total weight, per pitch class. -/
def buildPctMap (noteWeights : List (Nat × ℚ)) : List (Nat × ℤ) :=
  noteWeights.map (fun e => (e.1, jsRound (e.2 / safeTotal noteWeights * 100)))
/-- The Selection History state of `src/script.js`: the module-level
variables `history`, `historyIndex` and `suppressHistory`.  A recorded
selection is a set of pitch classes; `pcsKey` (sort + join) compares two
selections exactly as set equality, so entries are modelled as finite
sets. -/
structure HistState where
  history : List (Finset Nat)
  historyIndex : ℤ
  suppressHistory : Bool
deriving DecidableEq
/-- `history[historyIndex]` guarded by `historyIndex >= 0`, as used to
compute `currentKey` in `pushHistory` (an out-of-range read yields
`undefined`, i.e. `none`). -/
def entryAt (st : HistState) : Option (Finset Nat) :=
  if 0 ≤ st.historyIndex then st.history[st.historyIndex.toNat]? else none
/-- `Array.prototype.slice(0, e)` with a possibly negative end index. -/
def jsSliceToEnd {α : Type} (l : List α) (e : ℤ) : List α :=
  if 0 ≤ e then l.take e.toNat else l.take (((l.length : ℤ) + e).toNat)
/-- `pushHistory` from `src/script.js`: no-op under suppression or when the
pushed set equals the entry at the cursor; otherwise drop the redo branch,
append, and move the cursor to the new last index. -/
def pushHistory (nextSet : Finset Nat) (st : HistState) : HistState :=
  if st.suppressHistory then st
  else if entryAt st = some nextSet then st
  else
    let history' := jsSliceToEnd st.history (st.historyIndex + 1) ++ [nextSet]
    { st with history := history', historyIndex := (history'.length : ℤ) - 1 }
/-- The `undoBtn` click handler: guarded cursor decrement; the replay sets
`suppressHistory` around an `applySelection` call that itself passes
`recordHistory: false`, so no entry is recorded, and the flag ends false. -/
def undoStep (st : HistState) : HistState :=
  if st.historyIndex ≤ 0 then st
  else
    let st1 := { st with suppressHistory := true }
    let st2 := { st1 with historyIndex := st1.historyIndex - 1 }
    { st2 with suppressHistory := false }
/-- The `redoBtn` click handler: guarded cursor increment, with the same
suppression envelope as undo. -/
def redoStep (st : HistState) : HistState :=
  if st.historyIndex < 0 ∨ (st.history.length : ℤ) - 1 ≤ st.historyIndex then st
  else
    let st1 := { st with suppressHistory := true }
    let st2 := { st1 with historyIndex := st1.historyIndex + 1 }
    { st2 with suppressHistory := false }
/-- The initial state: empty module-level variables followed by the
`pushHistory(new Set())` call at load time (`src/script.js` line 185). -/
def initHistState : HistState :=
  pushHistory ∅ { history := [], historyIndex := -1, suppressHistory := false }
/-- One user-visible operation on the Selection History. -/
inductive HistOp where
  | push : Finset Nat → HistOp
  | undo : HistOp
  | redo : HistOp
/-- Apply one operation. -/
def applyHistOp (st : HistState) : HistOp → HistState
  | .push s => pushHistory s st
  | .undo => undoStep st
  | .redo => redoStep st
/-- Apply a sequence of operations in order. -/
def applyHistOps (st : HistState) (ops : List HistOp) : HistState :=
  ops.foldl applyHistOp st
/-- The cursor invariant: it points at an existing entry. -/
def HistInv (st : HistState) : Prop :=
  0 ≤ st.historyIndex ∧ st.historyIndex < (st.history.length : ℤ)
/-- The 24 candidate keys in generation order of the nested loops. -/
def allKeys : List (Nat × Mode) :=
  (List.range 12).flatMap (fun r => [(r, Mode.Major), (r, Mode.Minor)])
/-- The net value the scorer reports for one candidate. -/
def netScore (root : Nat) (name : Mode) (usedNotes : List Nat)
    (noteWeights : Nat → ℚ) : ℚ :=
  (scoreAndPenalty defaultScoreParams root name usedNotes noteWeights).1 -
    (scoreAndPenalty defaultScoreParams root name usedNotes noteWeights).2
/-- Characterisation of membership in the simple matcher's result. -/
lemma mem_findMatchingScalesSimple {usedNotes : List Nat} {c : SimpleMatch} :
    c ∈ findMatchingScalesSimple usedNotes ↔
      c.root < 12 ∧ c.name ∈ scaleModes ∧ c.rootName = midiToNoteName c.root ∧
        ∀ note ∈ usedNotes, note ∈ buildScale c.root (SCALES c.name) := by
  unfold findMatchingScalesSimple
  simp only [List.mem_flatMap, List.mem_filterMap, List.mem_range]
  constructor
  · rintro ⟨root, hroot, name, hname, hsome⟩
    split at hsome
    · rename_i hall
      cases hsome
      refine ⟨hroot, hname, rfl, ?_⟩
      intro note hnote
      have := (List.all_eq_true.mp hall) note hnote
      simpa [List.elem_iff] using this
    · exact absurd hsome (by simp)
  · rintro ⟨hroot, hname, hrn, hall⟩
    refine ⟨c.root, hroot, c.name, hname, ?_⟩
    have hcond : (usedNotes.all fun note =>
        (buildScale c.root (SCALES c.name)).contains note) = true := by
      simp only [List.all_eq_true]
      intro note hnote
      simpa [List.elem_iff] using hall note hnote
    simp only [hcond, if_true]
    cases c
    simp_all
/-- C1: every candidate returned by the containment matcher contains all of
the used notes: `usedNotes` is a subset of the scale instance built from the
candidate's root and mode. -/
theorem simple_matches_contain_all_used_notes
    (usedNotes : List Nat) (_hne : usedNotes ≠ [])
    (c : SimpleMatch) (hc : c ∈ findMatchingScalesSimple usedNotes) :
    ∀ note ∈ usedNotes, note ∈ buildScale c.root (SCALES c.name) :=
  (mem_findMatchingScalesSimple.mp hc).2.2.2
/-- Witness for C1 at the concrete input `[0, 4, 7]` and the candidate
`C Major`. -/
theorem simple_matches_contain_all_used_notes_witness :
    ([0, 4, 7] : List Nat) ≠ [] ∧
      (⟨0, .Major, "C"⟩ : SimpleMatch) ∈ findMatchingScalesSimple [0, 4, 7] ∧
      ∀ note ∈ ([0, 4, 7] : List Nat),
        note ∈ buildScale (SimpleMatch.mk 0 .Major "C").root
          (SCALES (SimpleMatch.mk 0 .Major "C").name) :=
  ⟨by decide, by decide,
    simple_matches_contain_all_used_notes [0, 4, 7] (by decide)
      ⟨0, .Major, "C"⟩ (by decide)⟩
/-- C4 counterexample: on the empty used-note set the containment matcher
does not return the empty list — `[].every(...)` is vacuously true, so all
24 scale instances match. -/
theorem simple_matcher_empty_input_not_empty_result :
    findMatchingScalesSimple [] ≠ [] := by decide
/-- C4 amended: on the empty used-note set the containment matcher returns
all 24 candidates (every root 0..11 in Major and Minor), by vacuous
containment; the empty-selection case is guarded upstream in the ranker,
not here. -/
theorem simple_matcher_empty_input_all_scales :
    (findMatchingScalesSimple []).length = 24 ∧
      (findMatchingScalesSimple []).map (fun c => (c.root, c.name)) =
        (List.range 12).flatMap (fun r => [(r, Mode.Major), (r, Mode.Minor)]) := by
  constructor
  · decide
  · decide
/-- C5 counterexample: the full C major scale does not produce exactly one
containment match — A natural minor has the same pitch-class set. -/
theorem c_major_scale_not_unique_match :
    (findMatchingScalesSimple [0, 2, 4, 5, 7, 9, 11]).length ≠ 1 := by decide
/-- C5 amended: the full C major scale yields exactly two containment
matches: C Major and its relative A Minor. -/
theorem c_major_scale_two_matches :
    (findMatchingScalesSimple [0, 2, 4, 5, 7, 9, 11]).map
        (fun c => (c.root, c.name)) = [(0, Mode.Major), (9, Mode.Minor)] := by
  decide
/-- The branch structure of the in-scale points computation agrees with the
spec's degree multiplier table. -/
lemma inScalePoints_eq_mult (p : ScoreParams) (name : Mode) (deg : Nat)
    (wt : ℚ) : inScalePoints p name deg wt = wt * specDegreeMultiplier p name deg := by
  unfold inScalePoints specDegreeMultiplier
  split_ifs <;> first | ring1 | tauto
/-- Unfolding the scoring loop: from any accumulator, the loop adds the
spec score to the first component and the spec penalty to the second. -/
lemma foldl_scoreStep (p : ScoreParams) (root : Nat) (name : Mode)
    (noteWeights : Nat → ℚ) :
    ∀ (usedNotes : List Nat) (acc : ℚ × ℚ),
      usedNotes.foldl (scoreStep p root name noteWeights) acc =
        (acc.1 + specScore p root name usedNotes noteWeights,
         acc.2 + specPenalty p root name usedNotes noteWeights) := by
  intro un
  induction un with
  | nil => intro acc; simp [specScore, specPenalty]
  | cons pc rest ih =>
    intro acc
    rw [List.foldl_cons, ih]
    by_cases h : (buildScale root (SCALES name)).contains pc
    · simp only [scoreStep, specScore, specPenalty, List.filter_cons, h,
        Bool.not_true, if_true, Bool.false_eq_true, if_false, List.map_cons,
        List.sum_cons, inScalePoints_eq_mult, Prod.mk.injEq]
      constructor <;> ring_nf
    · have hf : (buildScale root (SCALES name)).contains pc = false := by
        simpa using h
      simp only [scoreStep, specScore, specPenalty, List.filter_cons, hf,
        Bool.not_false, if_true, Bool.false_eq_true, if_false, List.map_cons,
        List.sum_cons, Prod.mk.injEq]
      refine ⟨by ring_nf, ?_⟩
      unfold specWrongThirdExtra
      split_ifs <;> first | ring1 | tauto
/-- The scoring loop computes exactly the spec's `(score, penalty)` pair. -/
lemma scoreAndPenalty_eq (p : ScoreParams) (root : Nat) (name : Mode)
    (usedNotes : List Nat) (noteWeights : Nat → ℚ) :
    scoreAndPenalty p root name usedNotes noteWeights =
      (specScore p root name usedNotes noteWeights,
       specPenalty p root name usedNotes noteWeights) := by
  unfold scoreAndPenalty
  rw [foldl_scoreStep]
  simp
/-- Every mode is listed in `scaleModes`. -/
lemma mem_scaleModes (name : Mode) : name ∈ scaleModes := by
  cases name <;> simp [scaleModes]
/-- The weighted comparator is transitive. -/
lemma weightedLE_trans (a b c : WeightedMatch) (hab : weightedLE a b = true)
    (hbc : weightedLE b c = true) : weightedLE a c = true := by
  simp only [weightedLE, decide_eq_true_eq] at hab hbc ⊢
  rcases hab with h1 | ⟨h1, h2⟩ <;> rcases hbc with h3 | ⟨h3, h4⟩
  · exact Or.inl (h3.trans h1)
  · exact Or.inl (h3 ▸ h1)
  · exact Or.inl (by rw [h1]; exact h3)
  · exact Or.inr ⟨h1.trans h3, h2.trans h4⟩
/-- The weighted comparator is total. -/
lemma weightedLE_total (a b : WeightedMatch) :
    (weightedLE a b || weightedLE b a) = true := by
  simp only [weightedLE, Bool.or_eq_true, decide_eq_true_eq]
  rcases lt_trichotomy a.score b.score with h | h | h
  · exact Or.inr (Or.inl h)
  · rcases le_total a.missing b.missing with hm | hm
    · exact Or.inl (Or.inr ⟨h, hm⟩)
    · exact Or.inr (Or.inr ⟨h.symm, hm⟩)
  · exact Or.inl (Or.inl h)
/-- Sorting does not change which records appear in the weighted result. -/
lemma mem_findMatchingScalesWeighted {p : ScoreParams} {usedNotes : List Nat}
    {noteWeights : Nat → ℚ} {m : WeightedMatch} :
    m ∈ findMatchingScalesWeighted usedNotes noteWeights p ↔
      m ∈ weightedEntries p usedNotes noteWeights :=
  (List.mergeSort_perm _ weightedLE).mem_iff
/-- Characterisation of the unsorted weighted results. -/
lemma mem_weightedEntries {p : ScoreParams} {usedNotes : List Nat}
    {noteWeights : Nat → ℚ} {m : WeightedMatch} :
    m ∈ weightedEntries p usedNotes noteWeights ↔
      ∃ root < 12, ∃ name : Mode,
        m = weightedEntry p root name usedNotes noteWeights := by
  unfold weightedEntries
  simp only [List.mem_flatMap, List.mem_map, List.mem_range]
  constructor
  · rintro ⟨root, hroot, name, _, rfl⟩
    exact ⟨root, hroot, name, rfl⟩
  · rintro ⟨root, hroot, name, rfl⟩
    exact ⟨root, hroot, name, mem_scaleModes name, rfl⟩
/-- C2: for every one of the 24 candidates, the value the weighted scorer
reports in its `score` field is the net value `score - penalty` of the
spec's formula (degree multipliers on in-scale classes, outside and
wrong-third penalties on the rest), and the default multipliers lie in the
spec's stated ranges. -/
theorem weighted_score_is_spec_net
    (usedNotes : List Nat) (noteWeights : Nat → ℚ) (root : Nat) (name : Mode)
    (hroot : root < 12)
    (_hpc : ∀ pc ∈ usedNotes, pc < 12)
    (_hw : ∀ pc ∈ usedNotes, 0 ≤ noteWeights pc) :
    (∀ m ∈ findMatchingScalesWeighted usedNotes noteWeights defaultScoreParams,
      m.root = root → m.name = name →
        m.score = specScore defaultScoreParams root name usedNotes noteWeights -
          specPenalty defaultScoreParams root name usedNotes noteWeights) ∧
    (∃ m ∈ findMatchingScalesWeighted usedNotes noteWeights defaultScoreParams,
      m.root = root ∧ m.name = name ∧
        m.score = specScore defaultScoreParams root name usedNotes noteWeights -
          specPenalty defaultScoreParams root name usedNotes noteWeights) ∧
    specMultiplierRanges defaultScoreParams := by
  refine ⟨?_, ?_, ?_⟩
  · intro m hm hr hn
    obtain ⟨root', _, name', rfl⟩ :=
      mem_weightedEntries.mp (mem_findMatchingScalesWeighted.mp hm)
    have hr' : root' = root := hr
    have hn' : name' = name := hn
    subst hr' hn'
    simp [weightedEntry, scoreAndPenalty_eq]
  · refine ⟨weightedEntry defaultScoreParams root name usedNotes noteWeights,
      mem_findMatchingScalesWeighted.mpr
        (mem_weightedEntries.mpr ⟨root, hroot, name, rfl⟩), rfl, rfl, ?_⟩
    simp [weightedEntry, scoreAndPenalty_eq]
  · unfold specMultiplierRanges defaultScoreParams
    norm_num
/-- Witness for C2 at `usedNotes = [0, 4, 7]`, uniform weight 1, candidate
`(0, Major)`. -/
theorem weighted_score_is_spec_net_witness :
    (0 : Nat) < 12 ∧ (∀ pc ∈ ([0, 4, 7] : List Nat), pc < 12) ∧
    (∀ pc ∈ ([0, 4, 7] : List Nat), (0 : ℚ) ≤ (fun _ => (1 : ℚ)) pc) ∧
    ((∀ m ∈ findMatchingScalesWeighted [0, 4, 7] (fun _ => (1 : ℚ))
        defaultScoreParams,
      m.root = 0 → m.name = .Major →
        m.score = specScore defaultScoreParams 0 .Major [0, 4, 7]
            (fun _ => (1 : ℚ)) -
          specPenalty defaultScoreParams 0 .Major [0, 4, 7]
            (fun _ => (1 : ℚ))) ∧
    (∃ m ∈ findMatchingScalesWeighted [0, 4, 7] (fun _ => (1 : ℚ))
        defaultScoreParams,
      m.root = 0 ∧ m.name = .Major ∧
        m.score = specScore defaultScoreParams 0 .Major [0, 4, 7]
            (fun _ => (1 : ℚ)) -
          specPenalty defaultScoreParams 0 .Major [0, 4, 7]
            (fun _ => (1 : ℚ))) ∧
    specMultiplierRanges defaultScoreParams) :=
  ⟨by decide, by decide, by norm_num,
    weighted_score_is_spec_net [0, 4, 7] (fun _ => (1 : ℚ)) 0 .Major
      (by decide) (by decide) (by norm_num)⟩
/-- The accumulation loop is the sum of the weight column. -/
lemma sumWeights_eq (noteWeights : List (Nat × ℚ)) :
    sumWeights noteWeights = (noteWeights.map Prod.snd).sum := by
  have h : ∀ (l : List (Nat × ℚ)) (acc : ℚ),
      l.foldl (fun total v => total + v.2) acc = acc + (l.map Prod.snd).sum := by
    intro l
    induction l with
    | nil => intro acc; simp
    | cons e rest ih => intro acc; rw [List.foldl_cons, ih]; simp; ring
  simpa using h noteWeights 0
/-- C6: whenever the total weight is positive the two coverage percentages
sum to 100, the in-percentage being the rounded weighted share inside the
instance and the out-percentage its clamped complement; on total weight 0
both are 0. -/
theorem coverage_percentages_sum_to_100
    (root : Nat) (mode : Mode) (noteWeights : List (Nat × ℚ))
    (hw : ∀ e ∈ noteWeights, 0 ≤ e.2) :
    (0 < sumWeights noteWeights →
      (computeScaleCoveragePct root mode noteWeights).1 +
          (computeScaleCoveragePct root mode noteWeights).2 = 100 ∧
        (computeScaleCoveragePct root mode noteWeights).1 =
          jsRound (coverageInTotal root mode noteWeights /
            sumWeights noteWeights * 100) ∧
        (computeScaleCoveragePct root mode noteWeights).2 =
          max 0 (100 - (computeScaleCoveragePct root mode noteWeights).1)) ∧
    (sumWeights noteWeights = 0 →
      computeScaleCoveragePct root mode noteWeights = (0, 0)) := by
  constructor
  · intro hpos
    have hnle : ¬ sumWeights noteWeights ≤ 0 := not_le.mpr hpos
    have hin0 : ∀ a ∈ (noteWeights.map Prod.snd), (0 : ℚ) ≤ a := by
      intro a ha
      obtain ⟨e, he, rfl⟩ := List.mem_map.mp ha
      exact hw e he
    have hsub : coverageInTotal root mode noteWeights ≤
        (noteWeights.map Prod.snd).sum :=
      List.Sublist.sum_le_sum
        (List.Sublist.map Prod.snd (List.filter_sublist noteWeights)) hin0
    have hratio : coverageInTotal root mode noteWeights /
        sumWeights noteWeights * 100 ≤ 100 := by
      have h1 : coverageInTotal root mode noteWeights /
          sumWeights noteWeights ≤ 1 := by
        rw [div_le_one hpos, sumWeights_eq]
        exact hsub
      nlinarith
    have hpct : jsRound (coverageInTotal root mode noteWeights /
        sumWeights noteWeights * 100) ≤ 100 := by
      unfold jsRound
      have h2 : coverageInTotal root mode noteWeights /
          sumWeights noteWeights * 100 + 1/2 ≤ (100 : ℚ) + 1/2 := by linarith
      calc ⌊coverageInTotal root mode noteWeights /
            sumWeights noteWeights * 100 + 1/2⌋
          ≤ ⌊(100 : ℚ) + 1/2⌋ := Int.floor_le_floor h2
        _ = 100 := by norm_num
    unfold computeScaleCoveragePct
    rw [if_neg hnle]
    refine ⟨?_, rfl, rfl⟩
    have hmax : max (0 : ℤ) (100 - jsRound (coverageInTotal root mode
        noteWeights / sumWeights noteWeights * 100)) =
        100 - jsRound (coverageInTotal root mode noteWeights /
          sumWeights noteWeights * 100) := max_eq_right (by omega)
    show jsRound (coverageInTotal root mode noteWeights /
        sumWeights noteWeights * 100) + max 0 (100 - jsRound (coverageInTotal
        root mode noteWeights / sumWeights noteWeights * 100)) = 100
    rw [hmax]
    ring
  · intro h0
    unfold computeScaleCoveragePct
    rw [if_pos (le_of_eq h0)]
/-- Witness for C6 at root 0, Major, entries `[(0, 1), (1, 1)]` (C weighted
1, C# weighted 1). -/
theorem coverage_percentages_sum_to_100_witness :
    (∀ e ∈ ([(0, 1), (1, 1)] : List (Nat × ℚ)), 0 ≤ e.2) ∧
      (0 < sumWeights [(0, 1), (1, 1)] ∧
        (computeScaleCoveragePct 0 .Major [(0, 1), (1, 1)]).1 +
          (computeScaleCoveragePct 0 .Major [(0, 1), (1, 1)]).2 = 100) := by
  have hw : ∀ e ∈ ([(0, 1), (1, 1)] : List (Nat × ℚ)), (0 : ℚ) ≤ e.2 := by
    norm_num
  have hpos : (0 : ℚ) < sumWeights [(0, 1), (1, 1)] := by
    norm_num [sumWeights]
  exact ⟨hw, hpos,
    (((coverage_percentages_sum_to_100 0 .Major [(0, 1), (1, 1)] hw).1) hpos).1⟩
/-- C7: the empty selection yields an empty candidate list and no best
guess; the percentage divisor is always positive (a zero total weight is
replaced by 1), and with total weight 0 every reported percentage is 0. -/
theorem empty_selection_no_candidates_no_division_by_zero :
    (∀ (showEmphasis : Bool) (noteWeights : Nat → ℚ),
      rankCandidates showEmphasis [] noteWeights = [] ∧
        bestGuess showEmphasis [] noteWeights = none) ∧
    (∀ noteWeights : List (Nat × ℚ), (∀ e ∈ noteWeights, 0 ≤ e.2) →
      0 < safeTotal noteWeights ∧
      (sumWeights noteWeights = 0 →
        safeTotal noteWeights = 1 ∧ ∀ e ∈ buildPctMap noteWeights, e.2 = 0)) := by
  constructor
  · intro showEmphasis noteWeights
    constructor
    · simp [rankCandidates]
    · simp [bestGuess, rankCandidates]
  · intro noteWeights hw
    constructor
    · unfold safeTotal
      split_ifs with h
      · exact h
      · norm_num
    · intro h0
      have hsafe : safeTotal noteWeights = 1 := by
        unfold safeTotal
        rw [if_neg (by rw [h0]; exact lt_irrefl 0)]
      refine ⟨hsafe, ?_⟩
      intro e he
      obtain ⟨f, hf, rfl⟩ := List.mem_map.mp he
      have hzero : f.2 = 0 := by
        have hle : f.2 ≤ (noteWeights.map Prod.snd).sum :=
          List.single_le_sum (by
            intro x hx
            obtain ⟨g, hg, rfl⟩ := List.mem_map.mp hx
            exact hw g hg) _ (List.mem_map_of_mem Prod.snd hf)
        have : f.2 ≤ 0 := by rw [← sumWeights_eq, h0] at hle; exact hle
        exact le_antisymm this (hw f hf)
      show jsRound (f.2 / safeTotal noteWeights * 100) = 0
      rw [hzero, hsafe]
      norm_num [jsRound]
/-- Witness for C7: the zero-weight singleton entry list, and the empty
selection with uniform weights. -/
theorem empty_selection_no_candidates_witness :
    (rankCandidates true [] (fun _ => (1 : ℚ)) = [] ∧
      bestGuess true [] (fun _ => (1 : ℚ)) = none) ∧
    ((∀ e ∈ ([(0, 0)] : List (Nat × ℚ)), 0 ≤ e.2) ∧
      sumWeights [(0, 0)] = 0 ∧ safeTotal [(0, 0)] = 1 ∧
      ∀ e ∈ buildPctMap [(0, 0)], e.2 = 0) := by
  have hw : ∀ e ∈ ([(0, 0)] : List (Nat × ℚ)), (0 : ℚ) ≤ e.2 := by norm_num
  have h0 : sumWeights [(0, 0)] = 0 := by norm_num [sumWeights]
  obtain ⟨h1, h2⟩ := empty_selection_no_candidates_no_division_by_zero
  obtain ⟨-, h4⟩ := h2 [(0, 0)] hw
  exact ⟨h1 true (fun _ => 1), hw, h0, h4 h0⟩
/-- The load-time push leaves a single empty entry at cursor 0. -/
lemma initHistState_eq : initHistState = ⟨[∅], 0, false⟩ := by decide
/-- C8: pushing the set at the cursor is a no-op; pushing any other set
drops every entry after the cursor, appends, and moves the cursor to the
new last index; in particular push(A), push(B), undo() sits at A, redo()
returns to B, and push(C) after the undo discards B from the future. -/
theorem push_discards_redo_branch :
    (∀ (st : HistState) (s : Finset Nat), st.suppressHistory = false →
      (entryAt st = some s → pushHistory s st = st) ∧
      (∀ t, entryAt st = some t → s ≠ t →
        pushHistory s st =
          { history := st.history.take (st.historyIndex + 1).toNat ++ [s],
            historyIndex :=
              ((st.history.take (st.historyIndex + 1).toNat ++ [s]).length : ℤ) - 1,
            suppressHistory := false })) ∧
    (∀ A B C : Finset Nat, A ≠ ∅ → B ≠ A → C ≠ A →
      entryAt (undoStep (pushHistory B (pushHistory A initHistState))) =
          some A ∧
        entryAt (redoStep (undoStep (pushHistory B
          (pushHistory A initHistState)))) = some B ∧
        (pushHistory C (undoStep (pushHistory B
          (pushHistory A initHistState)))).history = [∅, A, C]) := by
  constructor
  · intro st s hsupp
    constructor
    · intro hcur
      unfold pushHistory
      rw [if_neg (by simp [hsupp]), if_pos hcur]
    · intro t hcur hne
      have hidx : 0 ≤ st.historyIndex := by
        unfold entryAt at hcur
        by_contra hneg
        rw [if_neg hneg] at hcur
        exact Option.noConfusion hcur
      have hslice : jsSliceToEnd st.history (st.historyIndex + 1) =
          st.history.take (st.historyIndex + 1).toNat := by
        unfold jsSliceToEnd
        rw [if_pos (by omega)]
      unfold pushHistory
      rw [if_neg (by simp [hsupp]), if_neg (by
        rw [hcur]
        intro hc
        exact hne (Option.some_injective _ hc.symm))]
      rw [hslice]
      cases st
      simp_all
  · intro A B C hA hB hC
    have h1 : pushHistory A initHistState = ⟨[∅, A], 1, false⟩ := by
      rw [initHistState_eq]
      unfold pushHistory
      rw [if_neg (by simp), if_neg (by
        simp only [entryAt]
        norm_num
        exact fun hc => hA hc.symm)]
      simp [jsSliceToEnd]
    have h2 : pushHistory B (pushHistory A initHistState) =
        ⟨[∅, A, B], 2, false⟩ := by
      rw [h1]
      unfold pushHistory
      rw [if_neg (by simp), if_neg (by
        simp only [entryAt]
        norm_num
        exact fun hc => hB hc.symm)]
      simp [jsSliceToEnd]
    have h3 : undoStep (pushHistory B (pushHistory A initHistState)) =
        ⟨[∅, A, B], 1, false⟩ := by
      rw [h2]
      unfold undoStep
      rw [if_neg (by norm_num)]
      norm_num
    refine ⟨?_, ?_, ?_⟩
    · rw [h3]
      simp [entryAt]
    · rw [h3]
      unfold redoStep
      rw [if_neg (by norm_num)]
      simp [entryAt]
    · rw [h3]
      unfold pushHistory
      rw [if_neg (by simp), if_neg (by
        simp only [entryAt]
        norm_num
        exact fun hc => hC hc.symm)]
      simp [jsSliceToEnd]
/-- Witness for C8: the no-op push of the current entry at the initial
state, and the push(A), push(B), undo, redo / push(C) scenario at A = {0},
B = {0, 1}, C = {2}. -/
theorem push_discards_redo_branch_witness :
    (initHistState.suppressHistory = false ∧
      entryAt initHistState = some ∅ ∧
      pushHistory ∅ initHistState = initHistState) ∧
    (({0} : Finset Nat) ≠ ∅ ∧ ({0, 1} : Finset Nat) ≠ {0} ∧
      ({2} : Finset Nat) ≠ {0} ∧
      entryAt (undoStep (pushHistory {0, 1}
        (pushHistory {0} initHistState))) = some {0} ∧
      entryAt (redoStep (undoStep (pushHistory {0, 1}
        (pushHistory {0} initHistState)))) = some {0, 1} ∧
      (pushHistory {2} (undoStep (pushHistory {0, 1}
        (pushHistory {0} initHistState)))).history = [∅, {0}, {2}]) :=
  ⟨⟨by decide, by decide,
      (push_discards_redo_branch.1 initHistState ∅ (by decide)).1 (by decide)⟩,
    ⟨by decide, by decide, by decide,
      push_discards_redo_branch.2 {0} {0, 1} {2} (by decide) (by decide)
        (by decide)⟩⟩
/-- Pushing preserves the cursor invariant. -/
lemma histInv_push {st : HistState} (h : HistInv st) (s : Finset Nat) :
    HistInv (pushHistory s st) := by
  unfold pushHistory
  split_ifs with h1 h2
  · exact h
  · exact h
  · unfold HistInv
    simp only [List.length_append, List.length_cons, List.length_nil]
    constructor <;> omega
/-- Undo preserves the cursor invariant. -/
lemma histInv_undo {st : HistState} (h : HistInv st) :
    HistInv (undoStep st) := by
  unfold undoStep
  split_ifs with h1
  · exact h
  · obtain ⟨ha, hb⟩ := h
    refine ⟨?_, ?_⟩ <;> simp <;> omega
/-- Redo preserves the cursor invariant. -/
lemma histInv_redo {st : HistState} (h : HistInv st) :
    HistInv (redoStep st) := by
  unfold redoStep
  split_ifs with h1
  · exact h
  · push_neg at h1
    obtain ⟨ha, hb⟩ := h1
    refine ⟨?_, ?_⟩ <;> simp <;> omega
/-- Every single operation preserves the cursor invariant. -/
lemma histInv_applyHistOp {st : HistState} (h : HistInv st) :
    ∀ op : HistOp, HistInv (applyHistOp st op)
  | .push s => histInv_push h s
  | .undo => histInv_undo h
  | .redo => histInv_redo h
/-- Every operation sequence preserves the cursor invariant. -/
lemma histInv_applyHistOps :
    ∀ (ops : List HistOp) (st : HistState), HistInv st →
      HistInv (applyHistOps st ops) := by
  intro ops
  induction ops with
  | nil => intro st h; exact h
  | cons op rest ih =>
    intro st h
    exact ih (applyHistOp st op) (histInv_applyHistOp h op)
/-- C9: from the initial state every push/undo/redo sequence keeps the
cursor on an existing entry, and undo at the earliest entry and redo at the
latest entry are no-ops. -/
theorem history_cursor_always_valid :
    (∀ ops : List HistOp, HistInv (applyHistOps initHistState ops)) ∧
    (∀ st : HistState, st.historyIndex = 0 → undoStep st = st) ∧
    (∀ st : HistState, st.historyIndex = (st.history.length : ℤ) - 1 →
      redoStep st = st) := by
  refine ⟨?_, ?_, ?_⟩
  · intro ops
    refine histInv_applyHistOps ops initHistState ?_
    rw [initHistState_eq]
    exact ⟨by norm_num, by norm_num⟩
  · intro st h
    unfold undoStep
    rw [if_pos (le_of_eq h)]
  · intro st h
    unfold redoStep
    rw [if_pos (Or.inr (le_of_eq h.symm))]
/-- Witness for C9: a concrete operation sequence, undo at cursor 0 and
redo at the last entry. -/
theorem history_cursor_always_valid_witness :
    HistInv (applyHistOps initHistState [.push {0}, .undo, .redo]) ∧
    ((⟨[∅], 0, false⟩ : HistState).historyIndex = 0 ∧
      undoStep ⟨[∅], 0, false⟩ = ⟨[∅], 0, false⟩) ∧
    ((⟨[∅, {0}], 1, false⟩ : HistState).historyIndex =
        ((⟨[∅, {0}], 1, false⟩ : HistState).history.length : ℤ) - 1 ∧
      redoStep ⟨[∅, {0}], 1, false⟩ = ⟨[∅, {0}], 1, false⟩) :=
  ⟨history_cursor_always_valid.1 [.push {0}, .undo, .redo],
    ⟨rfl, history_cursor_always_valid.2.1 ⟨[∅], 0, false⟩ rfl⟩,
    ⟨by decide, history_cursor_always_valid.2.2 ⟨[∅, {0}], 1, false⟩
      (by decide)⟩⟩
/-- C10: where they are enabled, undo and redo only move the cursor: the
recorded entries (length and contents, in order) are unchanged, so the
replayed selection is not re-recorded as a new entry. -/
theorem undo_redo_change_only_cursor :
    ∀ st : HistState,
      (0 < st.historyIndex →
        (undoStep st).history = st.history ∧
          (undoStep st).historyIndex = st.historyIndex - 1) ∧
      (0 ≤ st.historyIndex → st.historyIndex < (st.history.length : ℤ) - 1 →
        (redoStep st).history = st.history ∧
          (redoStep st).historyIndex = st.historyIndex + 1) := by
  intro st
  constructor
  · intro h
    unfold undoStep
    rw [if_neg (by omega)]
    exact ⟨rfl, rfl⟩
  · intro h1 h2
    unfold redoStep
    rw [if_neg (by push_neg; exact ⟨h1, by omega⟩)]
    exact ⟨rfl, rfl⟩
/-- Witness for C10: undo at cursor 1 of a two-entry history, redo at
cursor 0 of the same history. -/
theorem undo_redo_change_only_cursor_witness :
    ((0 : ℤ) < 1 ∧
      (undoStep ⟨[∅, {0}], 1, false⟩).history = [∅, {0}] ∧
      (undoStep ⟨[∅, {0}], 1, false⟩).historyIndex = (1 : ℤ) - 1) ∧
    ((0 : ℤ) ≤ 0 ∧
      (0 : ℤ) < (([∅, {0}] : List (Finset Nat)).length : ℤ) - 1 ∧
      (redoStep ⟨[∅, {0}], 0, false⟩).history = [∅, {0}] ∧
      (redoStep ⟨[∅, {0}], 0, false⟩).historyIndex = (0 : ℤ) + 1) :=
  ⟨⟨by decide, (undo_redo_change_only_cursor ⟨[∅, {0}], 1, false⟩).1
      (by decide)⟩,
    ⟨by decide, by decide, (undo_redo_change_only_cursor
      ⟨[∅, {0}], 0, false⟩).2 (by decide) (by decide)⟩⟩
/-- A pairwise-ordered list relates any earlier element to any later one. -/
lemma rel_of_pair_sublist {α : Type} {R : α → α → Prop} {l : List α}
    (h : List.Pairwise R l) {x y : α} (hs : [x, y].Sublist l) : R x y := by
  have h2 := List.Pairwise.sublist hs h
  exact (List.pairwise_cons.mp h2).1 y (by simp)
/-- Two distinct members of a list occur in one of the two orders. -/
lemma pair_sublist_or {α : Type} {l : List α} {x y : α}
    (hx : x ∈ l) (hy : y ∈ l) (hne : x ≠ y) :
    [x, y].Sublist l ∨ [y, x].Sublist l := by
  induction l with
  | nil => cases hx
  | cons a t ih =>
    by_cases hxa : x = a
    · subst hxa
      have hyt : y ∈ t := by
        rcases List.mem_cons.mp hy with h | h
        · exact absurd h.symm hne
        · exact h
      exact Or.inl (List.Sublist.cons₂ x (List.singleton_sublist.mpr hyt))
    · by_cases hya : y = a
      · subst hya
        have hxt : x ∈ t := by
          rcases List.mem_cons.mp hx with h | h
          · exact absurd h hxa
          · exact h
        exact Or.inr (List.Sublist.cons₂ y (List.singleton_sublist.mpr hxt))
      · have hxt : x ∈ t := by
          rcases List.mem_cons.mp hx with h | h
          · exact absurd h hxa
          · exact h
        have hyt : y ∈ t := by
          rcases List.mem_cons.mp hy with h | h
          · exact absurd h hya
          · exact h
        rcases ih hxt hyt with h | h
        · exact Or.inl (List.Sublist.cons a h)
        · exact Or.inr (List.Sublist.cons a h)
/-- In a duplicate-free list two elements cannot occur in both orders. -/
lemma pair_sublist_antisymm {α : Type} {l : List α} (hnd : l.Nodup)
    {x y : α} (h1 : [x, y].Sublist l) (h2 : [y, x].Sublist l) : x = y := by
  induction l with
  | nil => simp at h1
  | cons a t ih =>
    rw [List.nodup_cons] at hnd
    obtain ⟨ha, hnd'⟩ := hnd
    cases h1 with
    | cons _ h1' =>
      cases h2 with
      | cons _ h2' => exact ih hnd' h1' h2'
      | cons₂ _ h2' =>
        exact absurd (List.Sublist.mem (by simp) h1') ha
    | cons₂ _ h1' =>
      cases h2 with
      | cons _ h2' =>
        exact absurd (List.Sublist.mem (by simp) h2') ha
      | cons₂ _ h2' => rfl
/-- Stability of the sort, forward direction: a pair that may legally stay
in its order (the comparator allows x before y) and occurs in the input
also occurs in that order in the output. -/
lemma pair_sublist_mergeSort_of_le {α : Type} {le : α → α → Bool}
    (htrans : ∀ a b c, le a b = true → le b c = true → le a c = true)
    (htotal : ∀ a b, (le a b || le b a) = true)
    {l : List α} {x y : α} (hxy : le x y = true)
    (hs : [x, y].Sublist l) : [x, y].Sublist (l.mergeSort le) := by
  refine List.sublist_mergeSort htrans htotal ?_ hs
  rw [List.pairwise_cons]
  refine ⟨fun b hb => ?_, List.pairwise_singleton _ _⟩
  have hb' := List.mem_singleton.mp hb
  subst hb'
  exact hxy
/-- Stability of the sort, converse direction for tied elements of a
duplicate-free list: ties keep their input order, so a tied pair of the
output was already in that order in the input. -/
lemma pair_sublist_of_mergeSort_tied {α : Type} {le : α → α → Bool}
    (htrans : ∀ a b c, le a b = true → le b c = true → le a c = true)
    (htotal : ∀ a b, (le a b || le b a) = true)
    {l : List α} (hnd : l.Nodup) {x y : α} (hne : x ≠ y)
    (_hxy : le x y = true) (hyx : le y x = true)
    (hs : [x, y].Sublist (l.mergeSort le)) : [x, y].Sublist l := by
  have hperm := List.mergeSort_perm l le
  have hx : x ∈ l := hperm.mem_iff.mp (List.Sublist.mem (by simp) hs)
  have hy : y ∈ l := hperm.mem_iff.mp (List.Sublist.mem (by simp) hs)
  rcases pair_sublist_or hx hy hne with h | h
  · exact h
  · exfalso
    have h2 := pair_sublist_mergeSort_of_le htrans htotal hyx h
    have hnd' : (l.mergeSort le).Nodup := hperm.nodup_iff.mpr hnd
    exact hne (pair_sublist_antisymm hnd' hs h2)
/-- A smaller `flatMap` along pointwise sublists. -/
lemma flatMap_sublist {α β : Type} {f g : α → List β} (l : List α)
    (h : ∀ a ∈ l, (f a).Sublist (g a)) :
    (l.flatMap f).Sublist (l.flatMap g) := by
  induction l with
  | nil => simp
  | cons a t ih =>
    simp only [List.flatMap_cons]
    exact List.Sublist.append (h a (List.mem_cons_self a t))
      (ih fun b hb => h b (List.mem_cons_of_mem a hb))
/-- Mapping the kept values of a `filterMap` is a sublist of mapping the
whole list, whenever kept values project to the original's image. -/
lemma map_filterMap_sublist_map {α β γ : Type} (f : α → Option β) (g : β → γ)
    (h : α → γ) (hfg : ∀ a b, f a = some b → g b = h a) (l : List α) :
    ((l.filterMap f).map g).Sublist (l.map h) := by
  induction l with
  | nil => simp
  | cons a t ih =>
    rw [List.filterMap_cons, List.map_cons]
    cases hfa : f a with
    | none => exact List.Sublist.cons (h a) ih
    | some b =>
      rw [List.map_cons, hfg a b hfa]
      exact List.Sublist.cons₂ (h a) ih
/-- The generation order has no duplicate keys. -/
lemma allKeys_nodup : allKeys.Nodup := by decide
/-- A key is generated exactly when its root is in range. -/
lemma mem_allKeys {r : Nat} {m : Mode} : (r, m) ∈ allKeys ↔ r < 12 := by
  cases m <;> simp [allKeys]
/-- The keys of the unsorted weighted results, in order. -/
lemma map_wkey_weightedEntries (p : ScoreParams) (usedNotes : List Nat)
    (noteWeights : Nat → ℚ) :
    (weightedEntries p usedNotes noteWeights).map wkey = allKeys := by
  unfold weightedEntries allKeys
  rw [List.map_flatMap]
  congr 1
/-- The keys of the containment matcher's output are a subsequence of the
generation order. -/
lemma map_skey_simple_sublist (usedNotes : List Nat) :
    ((findMatchingScalesSimple usedNotes).map skey).Sublist allKeys := by
  unfold findMatchingScalesSimple allKeys
  rw [List.map_flatMap]
  refine flatMap_sublist _ (fun r _ => ?_)
  have hlist : [(r, Mode.Major), (r, Mode.Minor)] =
      scaleModes.map (fun m => (r, m)) := by simp [scaleModes]
  rw [hlist]
  refine map_filterMap_sublist_map _ _ _ ?_ _
  intro a b hab
  dsimp only at hab
  split at hab
  · cases hab
    rfl
  · exact Option.noConfusion hab
/-- The unsorted weighted results are duplicate-free. -/
lemma weightedEntries_nodup (p : ScoreParams) (usedNotes : List Nat)
    (noteWeights : Nat → ℚ) : (weightedEntries p usedNotes noteWeights).Nodup :=
  List.Nodup.of_map wkey
    (by rw [map_wkey_weightedEntries]; exact allKeys_nodup)
/-- The sorted weighted results are duplicate-free. -/
lemma findMatchingScalesWeighted_nodup (usedNotes : List Nat)
    (noteWeights : Nat → ℚ) (p : ScoreParams) :
    (findMatchingScalesWeighted usedNotes noteWeights p).Nodup :=
  (List.mergeSort_perm _ weightedLE).nodup_iff.mpr
    (weightedEntries_nodup p usedNotes noteWeights)
/-- The sorted weighted results are pairwise ordered by the comparator. -/
lemma findMatchingScalesWeighted_sorted (usedNotes : List Nat)
    (noteWeights : Nat → ℚ) (p : ScoreParams) :
    List.Pairwise (fun a b => weightedLE a b = true)
      (findMatchingScalesWeighted usedNotes noteWeights p) :=
  List.sorted_mergeSort weightedLE_trans weightedLE_total _
/-- An accepted comparator outcome bounds the later score by the earlier. -/
lemma weightedLE_score_le {a b : WeightedMatch} (h : weightedLE a b = true) :
    b.score ≤ a.score := by
  simp only [weightedLE, decide_eq_true_eq] at h
  rcases h with h | ⟨h, -⟩
  · exact le_of_lt h
  · exact le_of_eq h.symm
/-- A weighted record is determined by its key within the results. -/
lemma eq_weightedEntry_of_mem {p : ScoreParams} {usedNotes : List Nat}
    {noteWeights : Nat → ℚ} {m : WeightedMatch}
    (h : m ∈ weightedEntries p usedNotes noteWeights) :
    m = weightedEntry p m.root m.name usedNotes noteWeights := by
  obtain ⟨r, -, n, rfl⟩ := mem_weightedEntries.mp h
  rfl
/-- A candidate whose scale contains every used note accrues no penalty. -/
lemma penalty_zero_of_contained (p : ScoreParams) (root : Nat) (name : Mode)
    (usedNotes : List Nat) (noteWeights : Nat → ℚ)
    (h : ∀ n ∈ usedNotes, n ∈ buildScale root (SCALES name)) :
    (scoreAndPenalty p root name usedNotes noteWeights).2 = 0 := by
  rw [scoreAndPenalty_eq]
  show specPenalty p root name usedNotes noteWeights = 0
  unfold specPenalty
  have hnil : (usedNotes.filter fun pc =>
      !(buildScale root (SCALES name)).contains pc) = [] := by
    rw [List.filter_eq_nil_iff]
    intro a ha
    simp [List.elem_iff, h a ha]
  rw [hnil]
  simp
/-- The rank comparator is transitive. -/
lemma rankLE_trans (ws : List WeightedMatch) (a b c : SimpleMatch)
    (h1 : rankLE ws a b = true) (h2 : rankLE ws b c = true) :
    rankLE ws a c = true := by
  simp only [rankLE, decide_eq_true_eq] at h1 h2 ⊢
  omega
/-- The rank comparator is total. -/
lemma rankLE_total (ws : List WeightedMatch) (a b : SimpleMatch) :
    (rankLE ws a b || rankLE ws b a) = true := by
  simp only [rankLE, Bool.or_eq_true, decide_eq_true_eq]
  omega
/-- When a key occurs among the weighted results, its rank is the position
of the (unique) record with that key. -/
lemma rankOf_lt_and_key {ws : List WeightedMatch} {x : SimpleMatch}
    (hmem : ∃ m ∈ ws, wkey m = skey x) :
    ∃ h : rankOf ws x < ws.length,
      wkey (ws.get ⟨rankOf ws x, h⟩) = skey x := by
  unfold rankOf
  cases hio : ws.findIdx? (fun m => decide (wkey m = skey x)) with
  | none =>
    exfalso
    obtain ⟨m, hm, hk⟩ := hmem
    have := List.findIdx?_eq_none_iff.mp hio m hm
    simp [hk] at this
  | some i =>
    obtain ⟨hlt, hp, -⟩ := List.findIdx?_eq_some_iff_getElem.mp hio
    simp only [Option.getD_some]
    refine ⟨hlt, ?_⟩
    have := of_decide_eq_true hp
    exact this
/-- Distinct keys have distinct ranks. -/
lemma rankOf_injective {ws : List WeightedMatch} {x y : SimpleMatch}
    (hx : ∃ m ∈ ws, wkey m = skey x) (hy : ∃ m ∈ ws, wkey m = skey y)
    (hne : skey x ≠ skey y) : rankOf ws x ≠ rankOf ws y := by
  obtain ⟨h1, k1⟩ := rankOf_lt_and_key hx
  obtain ⟨h2, k2⟩ := rankOf_lt_and_key hy
  intro he
  apply hne
  rw [← k1, ← k2]
  have : (⟨rankOf ws x, h1⟩ : Fin ws.length) = ⟨rankOf ws y, h2⟩ :=
    Fin.ext he
  rw [this]
/-- The score field of a weighted record is the net value. -/
lemma weightedEntry_score (p : ScoreParams) (r : Nat) (n : Mode)
    (usedNotes : List Nat) (noteWeights : Nat → ℚ) :
    (weightedEntry p r n usedNotes noteWeights).score =
      (scoreAndPenalty p r n usedNotes noteWeights).1 -
        (scoreAndPenalty p r n usedNotes noteWeights).2 := rfl
/-- The missing field of a weighted record is the penalty. -/
lemma weightedEntry_missing (p : ScoreParams) (r : Nat) (n : Mode)
    (usedNotes : List Nat) (noteWeights : Nat → ℚ) :
    (weightedEntry p r n usedNotes noteWeights).missing =
      (scoreAndPenalty p r n usedNotes noteWeights).2 := rfl
/-- The key of a generated weighted record. -/
lemma wkey_weightedEntry (p : ScoreParams) (r : Nat) (n : Mode)
    (usedNotes : List Nat) (noteWeights : Nat → ℚ) :
    wkey (weightedEntry p r n usedNotes noteWeights) = (r, n) := rfl
/-- Every in-range key occurs among the sorted weighted results. -/
lemma key_mem_ws {usedNotes : List Nat} {noteWeights : Nat → ℚ}
    {x : SimpleMatch} (hroot : x.root < 12) :
    ∃ m ∈ findMatchingScalesWeighted usedNotes noteWeights defaultScoreParams,
      wkey m = skey x :=
  ⟨weightedEntry defaultScoreParams x.root x.name usedNotes noteWeights,
    mem_findMatchingScalesWeighted.mpr
      (mem_weightedEntries.mpr ⟨x.root, hroot, x.name, rfl⟩), rfl⟩
/-- The weighted record found at a candidate's rank is the generated record
for that candidate's root and mode. -/
lemma get_rank_eq {usedNotes : List Nat} {noteWeights : Nat → ℚ}
    {x : SimpleMatch} (hroot : x.root < 12) :
    ∃ h : rankOf (findMatchingScalesWeighted usedNotes noteWeights
        defaultScoreParams) x <
      (findMatchingScalesWeighted usedNotes noteWeights
        defaultScoreParams).length,
      (findMatchingScalesWeighted usedNotes noteWeights
        defaultScoreParams).get
          ⟨rankOf (findMatchingScalesWeighted usedNotes noteWeights
            defaultScoreParams) x, h⟩ =
        weightedEntry defaultScoreParams x.root x.name usedNotes noteWeights := by
  obtain ⟨h, hkey⟩ := rankOf_lt_and_key (key_mem_ws hroot)
  refine ⟨h, ?_⟩
  have hmem2 := mem_findMatchingScalesWeighted.mp
    (List.get_mem (findMatchingScalesWeighted usedNotes noteWeights
      defaultScoreParams)
      (rankOf (findMatchingScalesWeighted usedNotes noteWeights
        defaultScoreParams) x) h)
  have hdet := eq_weightedEntry_of_mem hmem2
  have hr := congrArg Prod.fst hkey
  have hn := congrArg Prod.snd hkey
  simp only [wkey, skey] at hr hn
  rw [hdet, hr, hn]
/-- Elements at increasing positions form a pair subsequence. -/
lemma get_pair_sublist {α : Type} {l : List α} (i j : Fin l.length)
    (hij : i < j) : [l.get i, l.get j].Sublist l := by
  have h := @List.map_getElem_sublist α l [i, j] (by
    rw [List.pairwise_cons]
    refine ⟨fun b hb => ?_, List.pairwise_singleton _ _⟩
    rw [List.mem_singleton.mp hb]
    exact hij)
  simpa using h
/-- The containment matcher never lists the same key twice, and a match is
determined by its key. -/
lemma skey_injOn_simple {usedNotes : List Nat} {x y : SimpleMatch}
    (hx : x ∈ findMatchingScalesSimple usedNotes)
    (hy : y ∈ findMatchingScalesSimple usedNotes)
    (h : skey x = skey y) : x = y := by
  obtain ⟨-, -, hrx, -⟩ := mem_findMatchingScalesSimple.mp hx
  obtain ⟨-, -, hry, -⟩ := mem_findMatchingScalesSimple.mp hy
  have hr := congrArg Prod.fst h
  have hn := congrArg Prod.snd h
  simp only [skey] at hr hn
  cases x
  cases y
  simp_all
/-- Unfolding of the candidate construction for a non-empty selection. -/
lemma rankCandidates_cons (se : Bool) (a : Nat) (t : List Nat)
    (noteWeights : Nat → ℚ) :
    rankCandidates se (a :: t) noteWeights =
      if 0 < (findMatchingScalesSimple (a :: t)).length then
        if se then
          (findMatchingScalesSimple (a :: t)).mergeSort
            (rankLE (findMatchingScalesWeighted (a :: t) noteWeights
              defaultScoreParams))
        else (findMatchingScalesSimple (a :: t)).mergeSort neutralLE
      else ((findMatchingScalesWeighted (a :: t) noteWeights
        defaultScoreParams).take 12).map weightedToCandidate := rfl
/-- The neutral comparator is transitive. -/
lemma neutralLE_trans (a b c : SimpleMatch) (h1 : neutralLE a b = true)
    (h2 : neutralLE b c = true) : neutralLE a c = true := by
  simp only [neutralLE, decide_eq_true_eq] at h1 h2 ⊢
  omega

/-- The neutral comparator is total. -/
lemma neutralLE_total (a b : SimpleMatch) :
    (neutralLE a b || neutralLE b a) = true := by
  simp only [neutralLE, Bool.or_eq_true, decide_eq_true_eq]
  omega

/-- C3 counterexample: in the reachable manual path without MIDI emphasis
data (`hasMidiEmphasisData()` false) the ranker sorts the containment
matches by root and mode name, not by descending weighted net score: for
the C major triad with uniform weights the output lists D Minor
(net 5/2) before E Minor (net 31/5). -/
theorem ranker_neutral_order_not_descending_net :
    [(⟨2, .Minor, "D"⟩ : SimpleMatch), ⟨4, .Minor, "E"⟩].Sublist
        (rankCandidates false [0, 4, 7] (fun _ => (1 : ℚ))) ∧
      netScore 2 .Minor [0, 4, 7] (fun _ => (1 : ℚ)) <
        netScore 4 .Minor [0, 4, 7] (fun _ => (1 : ℚ)) := by
  constructor
  · have hrc : rankCandidates false [0, 4, 7] (fun _ => (1 : ℚ)) =
        (findMatchingScalesSimple [0, 4, 7]).mergeSort neutralLE := by
      rw [rankCandidates_cons, if_pos (by decide), if_neg (by simp)]
    rw [hrc]
    exact pair_sublist_mergeSort_of_le neutralLE_trans neutralLE_total
      (by decide) (by decide)
  · have h2 : netScore 2 .Minor [0, 4, 7] (fun _ => (1 : ℚ)) = 5/2 := by
      norm_num [netScore, scoreAndPenalty, scoreStep, inScalePoints, degreeOf,
        buildScale, SCALES, defaultScoreParams, List.foldl]
    have h4 : netScore 4 .Minor [0, 4, 7] (fun _ => (1 : ℚ)) = 31/5 := by
      norm_num [netScore, scoreAndPenalty, scoreStep, inScalePoints, degreeOf,
        buildScale, SCALES, defaultScoreParams, List.foldl]
    rw [h2, h4]
    norm_num

/-- C3 amended: for a non-empty selection whose containment set is
non-empty, the ranker's list is exactly that set in both modes; with MIDI
emphasis data it is ordered by descending weighted net score with ties kept
in the matcher's input order, while without emphasis data it is ordered
neutrally by root ascending and then mode name (Major before Minor), not by
net score.  With no containment match the list is the top 12 weighted
candidates by net score in both modes, and the best guess is element 0 of
the final list. -/
theorem ranker_merges_containment_and_weighted
    (usedNotes : List Nat) (noteWeights : Nat → ℚ) (hne : usedNotes ≠ []) :
    (findMatchingScalesSimple usedNotes ≠ [] →
      ((rankCandidates true usedNotes noteWeights).Perm
          (findMatchingScalesSimple usedNotes) ∧
        ∀ x y : SimpleMatch, x ≠ y →
          [x, y].Sublist (rankCandidates true usedNotes noteWeights) →
            netScore y.root y.name usedNotes noteWeights ≤
                netScore x.root x.name usedNotes noteWeights ∧
              (netScore x.root x.name usedNotes noteWeights =
                  netScore y.root y.name usedNotes noteWeights →
                [x, y].Sublist (findMatchingScalesSimple usedNotes))) ∧
      ((rankCandidates false usedNotes noteWeights).Perm
          (findMatchingScalesSimple usedNotes) ∧
        ∀ x y : SimpleMatch, x ≠ y →
          [x, y].Sublist (rankCandidates false usedNotes noteWeights) →
            x.root < y.root ∨ (x.root = y.root ∧
              modeIdx x.name ≤ modeIdx y.name))) ∧
    (findMatchingScalesSimple usedNotes = [] →
      ∀ showEmphasis : Bool,
        rankCandidates showEmphasis usedNotes noteWeights =
            ((findMatchingScalesWeighted usedNotes noteWeights
              defaultScoreParams).take 12).map weightedToCandidate ∧
          ∀ u v : WeightedMatch,
            [u, v].Sublist (findMatchingScalesWeighted usedNotes noteWeights
              defaultScoreParams) → v.score ≤ u.score) ∧
    ∀ showEmphasis : Bool,
      bestGuess showEmphasis usedNotes noteWeights =
        (rankCandidates showEmphasis usedNotes noteWeights).head? := by
  obtain ⟨a, t, rfl⟩ : ∃ a t, usedNotes = a :: t := by
    cases usedNotes with
    | nil => exact absurd rfl hne
    | cons a t => exact ⟨a, t, rfl⟩
  refine ⟨?_, ?_, fun _ => rfl⟩
  · intro hs
    have hrc : rankCandidates true (a :: t) noteWeights =
        (findMatchingScalesSimple (a :: t)).mergeSort
          (rankLE (findMatchingScalesWeighted (a :: t) noteWeights
            defaultScoreParams)) := by
      rw [rankCandidates_cons, if_pos (List.length_pos.mpr hs), if_pos rfl]
    have hrcF : rankCandidates false (a :: t) noteWeights =
        (findMatchingScalesSimple (a :: t)).mergeSort neutralLE := by
      rw [rankCandidates_cons, if_pos (List.length_pos.mpr hs),
        if_neg (by simp)]
    refine ⟨⟨?_, ?_⟩, ⟨?_, ?_⟩⟩
    · rw [hrc]
      exact List.mergeSort_perm _ _
    · intro x y hxy hpair
      rw [hrc] at hpair
      have hx : x ∈ findMatchingScalesSimple (a :: t) :=
        (List.mergeSort_perm _ _).mem_iff.mp
          (List.Sublist.mem (by simp) hpair)
      have hy : y ∈ findMatchingScalesSimple (a :: t) :=
        (List.mergeSort_perm _ _).mem_iff.mp
          (List.Sublist.mem (by simp) hpair)
      obtain ⟨hxr, -, -, hxcont⟩ := mem_findMatchingScalesSimple.mp hx
      obtain ⟨hyr, -, -, hycont⟩ := mem_findMatchingScalesSimple.mp hy
      have hskey : skey x ≠ skey y := fun hk => hxy (skey_injOn_simple hx hy hk)
      have hsorted := List.sorted_mergeSort
        (rankLE_trans (findMatchingScalesWeighted (a :: t) noteWeights
          defaultScoreParams))
        (rankLE_total (findMatchingScalesWeighted (a :: t) noteWeights
          defaultScoreParams))
        (findMatchingScalesSimple (a :: t))
      have hrle := rel_of_pair_sublist hsorted hpair
      have hranks : rankOf (findMatchingScalesWeighted (a :: t) noteWeights
          defaultScoreParams) x ≤
          rankOf (findMatchingScalesWeighted (a :: t) noteWeights
            defaultScoreParams) y := by
        simpa [rankLE, decide_eq_true_eq] using hrle
      obtain ⟨hbx, hex⟩ := @get_rank_eq (a :: t) noteWeights x hxr
      obtain ⟨hby, hey⟩ := @get_rank_eq (a :: t) noteWeights y hyr
      have hlt : rankOf (findMatchingScalesWeighted (a :: t) noteWeights
          defaultScoreParams) x <
          rankOf (findMatchingScalesWeighted (a :: t) noteWeights
            defaultScoreParams) y :=
        lt_of_le_of_ne hranks
          (rankOf_injective (key_mem_ws hxr) (key_mem_ws hyr) hskey)
      have hpw := List.pairwise_iff_get.mp
        (findMatchingScalesWeighted_sorted (a :: t) noteWeights
          defaultScoreParams)
        ⟨rankOf (findMatchingScalesWeighted (a :: t) noteWeights
          defaultScoreParams) x, hbx⟩
        ⟨rankOf (findMatchingScalesWeighted (a :: t) noteWeights
          defaultScoreParams) y, hby⟩
        (by exact hlt)
      have hsc := weightedLE_score_le hpw
      rw [hex, hey] at hsc
      refine ⟨hsc, ?_⟩
      intro hnet
      have hxm : (weightedEntry defaultScoreParams x.root x.name (a :: t)
          noteWeights).missing = 0 := by
        rw [weightedEntry_missing]
        exact penalty_zero_of_contained _ _ _ _ _ hxcont
      have hym : (weightedEntry defaultScoreParams y.root y.name (a :: t)
          noteWeights).missing = 0 := by
        rw [weightedEntry_missing]
        exact penalty_zero_of_contained _ _ _ _ _ hycont
      have hscoreeq : (weightedEntry defaultScoreParams x.root x.name (a :: t)
          noteWeights).score = (weightedEntry defaultScoreParams y.root y.name
          (a :: t) noteWeights).score := hnet
      have hle1 : weightedLE (weightedEntry defaultScoreParams x.root x.name
          (a :: t) noteWeights) (weightedEntry defaultScoreParams y.root y.name
          (a :: t) noteWeights) = true := by
        simp only [weightedLE, decide_eq_true_eq]
        exact Or.inr ⟨hscoreeq, by rw [hxm, hym]⟩
      have hle2 : weightedLE (weightedEntry defaultScoreParams y.root y.name
          (a :: t) noteWeights) (weightedEntry defaultScoreParams x.root x.name
          (a :: t) noteWeights) = true := by
        simp only [weightedLE, decide_eq_true_eq]
        exact Or.inr ⟨hscoreeq.symm, by rw [hxm, hym]⟩
      have hexney : weightedEntry defaultScoreParams x.root x.name (a :: t)
          noteWeights ≠ weightedEntry defaultScoreParams y.root y.name (a :: t)
          noteWeights := by
        intro he
        apply hskey
        have := congrArg wkey he
        rwa [wkey_weightedEntry, wkey_weightedEntry] at this
      have hpair_ws : [weightedEntry defaultScoreParams x.root x.name (a :: t)
          noteWeights, weightedEntry defaultScoreParams y.root y.name (a :: t)
          noteWeights].Sublist (findMatchingScalesWeighted (a :: t) noteWeights
          defaultScoreParams) := by
        have := @get_pair_sublist WeightedMatch
          (findMatchingScalesWeighted (a :: t) noteWeights
            defaultScoreParams)
          ⟨rankOf (findMatchingScalesWeighted (a :: t) noteWeights
            defaultScoreParams) x, hbx⟩
          ⟨rankOf (findMatchingScalesWeighted (a :: t) noteWeights
            defaultScoreParams) y, hby⟩
          (by exact hlt)
        rwa [hex, hey] at this
      have hpair_entries :
          [weightedEntry defaultScoreParams x.root x.name (a :: t) noteWeights,
            weightedEntry defaultScoreParams y.root y.name (a :: t)
              noteWeights].Sublist
            (weightedEntries defaultScoreParams (a :: t) noteWeights) :=
        pair_sublist_of_mergeSort_tied weightedLE_trans weightedLE_total
          (weightedEntries_nodup defaultScoreParams (a :: t) noteWeights)
          hexney hle1 hle2 hpair_ws
      have hkeys : [skey x, skey y].Sublist allKeys := by
        have hmap := List.Sublist.map wkey hpair_entries
        rw [map_wkey_weightedEntries] at hmap
        simpa [wkey_weightedEntry] using hmap
      rcases pair_sublist_or hx hy hxy with hgood | hbad
      · exact hgood
      · exfalso
        have hmap2 : [skey y, skey x].Sublist allKeys :=
          (List.Sublist.map skey hbad).trans (map_skey_simple_sublist (a :: t))
        exact hskey (pair_sublist_antisymm allKeys_nodup hkeys hmap2)
    · rw [hrcF]
      exact List.mergeSort_perm _ _
    · intro x y hxy hpair
      rw [hrcF] at hpair
      have hsorted := List.sorted_mergeSort neutralLE_trans neutralLE_total
        (findMatchingScalesSimple (a :: t))
      have hn := rel_of_pair_sublist hsorted hpair
      simpa [neutralLE, decide_eq_true_eq] using hn
  · intro hs showEmphasis
    have hrc : rankCandidates showEmphasis (a :: t) noteWeights =
        ((findMatchingScalesWeighted (a :: t) noteWeights
          defaultScoreParams).take 12).map weightedToCandidate := by
      rw [rankCandidates_cons, if_neg (by rw [hs]; simp)]
    refine ⟨hrc, ?_⟩
    intro u v hpair
    exact weightedLE_score_le (rel_of_pair_sublist
      (findMatchingScalesWeighted_sorted (a :: t) noteWeights
        defaultScoreParams) hpair)

/-- Witness for the amended C3 at `usedNotes = [0, 4, 7]` with uniform
weight 1 (the containment branch is non-empty there). -/
theorem ranker_merges_containment_and_weighted_witness :
    ([0, 4, 7] : List Nat) ≠ [] ∧
    findMatchingScalesSimple [0, 4, 7] ≠ [] ∧
    (((rankCandidates true [0, 4, 7] (fun _ => (1 : ℚ))).Perm
        (findMatchingScalesSimple [0, 4, 7]) ∧
      ∀ x y : SimpleMatch, x ≠ y →
        [x, y].Sublist (rankCandidates true [0, 4, 7] (fun _ => (1 : ℚ))) →
          netScore y.root y.name [0, 4, 7] (fun _ => (1 : ℚ)) ≤
              netScore x.root x.name [0, 4, 7] (fun _ => (1 : ℚ)) ∧
            (netScore x.root x.name [0, 4, 7] (fun _ => (1 : ℚ)) =
                netScore y.root y.name [0, 4, 7] (fun _ => (1 : ℚ)) →
              [x, y].Sublist (findMatchingScalesSimple [0, 4, 7]))) ∧
     ((rankCandidates false [0, 4, 7] (fun _ => (1 : ℚ))).Perm
        (findMatchingScalesSimple [0, 4, 7]) ∧
      ∀ x y : SimpleMatch, x ≠ y →
        [x, y].Sublist (rankCandidates false [0, 4, 7] (fun _ => (1 : ℚ))) →
          x.root < y.root ∨ (x.root = y.root ∧
            modeIdx x.name ≤ modeIdx y.name))) ∧
    ∀ showEmphasis : Bool,
      bestGuess showEmphasis [0, 4, 7] (fun _ => (1 : ℚ)) =
        (rankCandidates showEmphasis [0, 4, 7] (fun _ => (1 : ℚ))).head? :=
  ⟨by decide, by decide,
    (ranker_merges_containment_and_weighted [0, 4, 7] (fun _ => (1 : ℚ))
      (by decide)).1 (by decide),
    (ranker_merges_containment_and_weighted [0, 4, 7] (fun _ => (1 : ℚ))
      (by decide)).2.2⟩
